import Mathlib

/-!
Verification of the `tools/` scripts of the hotel-booking repository.

Strings are embedded as `List Char` (a Lean string literal `"s".toList`
denotes the corresponding character list).  Python's `str.replace`,
substring containment (`in`), `str.startswith`-style checks and glob
patterns of the shape `pre*suf` are translated below as executable
functions on `List Char`.
-/

namespace HotelBooking

/-! ## Character-list primitives

`repGo` is a fuelless scanner implementing Python's `str.replace` for a
non-empty pattern: it walks the text left to right; at each position it
either recognises the pattern as a prefix (emitting the replacement and
skipping the pattern) or copies one character.  The extra `Nat` argument
counts characters still to be skipped after a match, which keeps the
recursion structural (hence kernel-computable).  `replaceAll pat rep s`
is Python's `s.replace(pat, rep)` for non-empty `pat`.
-/

def repGo (pat rep : List Char) : List Char → Nat → List Char
  | [], _ => []
  | _ :: rest, n+1 => repGo pat rep rest n
  | c :: rest, 0 =>
    if pat.isPrefixOf (c :: rest) then rep ++ repGo pat rep rest (pat.length - 1)
    else c :: repGo pat rep rest 0

def replaceAll (pat rep s : List Char) : List Char :=
  repGo pat rep s 0

/-- Leftmost non-overlapping decomposition of `s` along occurrences of
`pat`: the returned parts, glued back with `pat`, give `s`, and gluing
them with another string performs exactly the replacement done by
`replaceAll`.  Same skip-counter device as `repGo`. -/
def splitGo (pat : List Char) : List Char → Nat → List (List Char)
  | [], _ => [[]]
  | _ :: rest, n+1 => splitGo pat rest n
  | c :: rest, 0 =>
    if pat.isPrefixOf (c :: rest) then [] :: splitGo pat rest (pat.length - 1)
    else
      match splitGo pat rest 0 with
      | [] => [[c]]
      | p :: ps => (c :: p) :: ps

def splitOnPat (pat s : List Char) : List (List Char) :=
  splitGo pat s 0

/-- Glue a list of parts with a separator: `joinWith sep [a, b, c] =
a ++ sep ++ b ++ sep ++ c`.  This is Python's `sep.join(parts)`. -/
def joinWith (sep : List Char) : List (List Char) → List Char
  | [] => []
  | [p] => p
  | p :: ps => p ++ sep ++ joinWith sep ps

/-- Python's substring test `pat in s`: does `pat` occur contiguously in
`s`?  Scans every position for a prefix match. -/
def containsSub (pat : List Char) : List Char → Bool
  | [] => pat.isPrefixOf []
  | c :: rest => pat.isPrefixOf (c :: rest) || containsSub pat rest

/-! ## `tools/change_me_local_secret.py` -/

/-- `PLACEHOLDER = "CHANGE_ME_LOCAL_SECRET"` from
`change_me_local_secret.py`. -/
def PLACEHOLDER : List Char := "CHANGE_ME_LOCAL_SECRET".toList

/-- `ALPHABET = string.ascii_letters + string.digits` from
`change_me_local_secret.py`. -/
def ALPHABET : List Char :=
  "abcdefghijklmnopqrstuvwxyzABCDEFGHIJKLMNOPQRSTUVWXYZ0123456789".toList

/-- `generate_secret(length)` draws `length` independent characters from
`ALPHABET` via `secrets.choice`.  The randomness is not modelled; this
predicate characterises exactly the strings the function can return. -/
def isGeneratedSecret (n : Nat) (s : List Char) : Prop :=
  s.length = n ∧ ∀ c ∈ s, c ∈ ALPHABET

/-- Translation of `replace_placeholder(path, secret)` from
`change_me_local_secret.py`.  The file system state at `path` is `none`
(absent) or `some text`; `readOk` is whether `path.read_text` succeeds
(`false` models an `IOError`, which the source catches, warns about and
returns from).  The result `Except.ok act` means the function returned
normally with write action `act`: `none` when it returned without
writing, `some c` when it overwrote the file with content `c`
(`path.write_text` is assumed to succeed; its `IOError` handler is not
exercised by any claim).  An `Except.error` value would model an
uncaught exception escaping the function; no branch produces one. -/
def replace_placeholder (file : Option (List Char)) (readOk : Bool)
    (secret : List Char) : Except Unit (Option (List Char)) :=
  match file with
  | none => Except.ok none
  | some text =>
    if readOk then
      if containsSub PLACEHOLDER text then
        Except.ok (some (replaceAll PLACEHOLDER secret text))
      else Except.ok none
    else Except.ok none

/-- The content at the path after the call, given the state before and
the write action performed. -/
def fileAfter (file : Option (List Char)) (act : Option (List Char)) :
    Option (List Char) :=
  match act with
  | none => file
  | some c => some c

/-! ## `tools/create_pgo.py`

The script itself is not part of the sources at hand; only its unit
tests (`tools/create_pgo_test.py`) are.  The definitions below are
modelled from the spec and pinned to the concrete commands, filename
computations and glob patterns that the tests assert.
-/

/-- Outcome of one `run_command` call: either control returns to the
caller, or the whole process is terminated via `sys.exit` with the given
status. -/
inductive RunOutcome where
  | completed : RunOutcome
  | exited : Nat → RunOutcome
deriving DecidableEq

/-- Modelled from the spec: `run_command(cmd, shell, check)` of
`create_pgo.py` runs the external command synchronously; `exitStatus` is
the status the external process terminates with (it abstracts the
command argument).  With `check` true a non-zero status raises
`subprocess.CalledProcessError`, which the runner converts into
`sys.exit` with the process's own status — no retry, no other error
path; with `check` false (or a zero status) the call returns normally
(`TestRunCommand` in `create_pgo_test.py`). -/
def run_command (exitStatus : Nat) (shell check : Bool) : RunOutcome :=
  if check && exitStatus != 0 then RunOutcome.exited exitStatus
  else RunOutcome.completed

/-- Modelled from the spec: the identifier substitution of the artifact
naming scheme, `pkg.replace("/", "__").replace("\\", "__")` as asserted
by `TestProfileFilenameGeneration`. -/
def substituted (id : List Char) : List Char :=
  replaceAll ['\\'] ('_' :: '_' :: []) (replaceAll ['/'] ('_' :: '_' :: []) id)

/-- The spec's wording of the same substitution: every `/` and every
`\` becomes the two-character string `__`, all other characters are
kept.  Stated independently of `replaceAll` so that the naming claim is
a genuine refinement, compared against `substituted` below. -/
def specSubst : List Char → List Char
  | [] => []
  | c :: rest => (if c = '/' ∨ c = '\\' then '_' :: '_' :: [] else [c]) ++ specSubst rest

/-- Modelled from the spec: the per-unit artifact filename
`f"cpuprofile-{suffix}.pprof"` derived from a ProfiledUnit identifier
(`TestProfileFilenameGeneration`). -/
def profile_filename (id : List Char) : List Char :=
  "cpuprofile-".toList ++ substituted id ++ ".pprof".toList

/-- Modelled from the spec: the benchmark-only `go test` command built
by the profiler for one unit (`TestBenchmarkCommand`). -/
def benchmark_cmd (pkg : List Char) : List (List Char) :=
  ["go".toList,
   "test".toList,
   "./".toList ++ pkg ++ "/...".toList,
   "-run=^$".toList,
   "-bench=.".toList,
   "-benchtime=10s".toList,
   "-cpuprofile=".toList ++ profile_filename pkg,
   "-pgo=off".toList]

/-- A filename matches the glob `pre*suf` exactly when it is
`pre ++ mid ++ suf` for some (possibly empty) `mid`: `pre` is a prefix
and `suf` is a suffix of what remains after `pre`. -/
def matchesGlob (pre suf name : List Char) : Bool :=
  pre.isPrefixOf name && suf.isSuffixOf (name.drop pre.length)

/-- Modelled from the spec: a directory entry removed by the cleanup
step, i.e. one matching glob `cpuprofile*.pprof` or glob `*.test`
(`TestCleanupLogic` and `TestIntegrationScenarios` in
`create_pgo_test.py`). -/
def isIntermediate (name : List Char) : Bool :=
  matchesGlob "cpuprofile".toList ".pprof".toList name ||
    matchesGlob [] ".test".toList name

/-- Modelled from the spec: the cleanup step over a directory listing —
every entry matching one of the two glob patterns is removed, all other
entries survive. -/
def cleanup (files : List (List Char)) : List (List Char) :=
  files.filter (fun f => !(isIntermediate f))

/-- The spec-side characterisation of a file the cleanup must keep: it
is not of the shape `cpuprofile<mid>.pprof` and does not end in
`.test`. -/
def KeptBySpec (f : List Char) : Prop :=
  ¬ ((∃ mid, f = "cpuprofile".toList ++ mid ++ ".pprof".toList) ∨
     (∃ stem, f = stem ++ ".test".toList))

/-! ## Basic lemmas about the character-list primitives -/

theorem isPreOf_iff (l₁ l₂ : List Char) : l₁.isPrefixOf l₂ = true ↔ l₁ <+: l₂ := by
  induction l₁ generalizing l₂ with
  | nil =>
    constructor
    · intro _; exact ⟨l₂, rfl⟩
    · intro _; cases l₂ <;> rfl
  | cons a as ih =>
    cases l₂ with
    | nil =>
      constructor
      · intro h; exact Bool.noConfusion h
      · rintro ⟨t, ht⟩; exact List.noConfusion ht
    | cons b bs =>
      have hred : ((a :: as).isPrefixOf (b :: bs)) = (a == b && as.isPrefixOf bs) := rfl
      rw [hred, Bool.and_eq_true, beq_iff_eq, ih bs, List.cons_prefix_cons]

theorem isSufOf_iff (l₁ l₂ : List Char) : l₁.isSuffixOf l₂ = true ↔ l₁ <:+ l₂ := by
  have hred : l₁.isSuffixOf l₂ = l₁.reverse.isPrefixOf l₂.reverse := rfl
  rw [hred, isPreOf_iff]
  exact List.reverse_prefix

theorem subCons_iff (l₁ l₂ : List Char) (a : Char) :
    l₁ <:+: a :: l₂ ↔ l₁ <+: a :: l₂ ∨ l₁ <:+: l₂ :=
  List.infix_cons_iff

theorem subOfNil_eq (l : List Char) (h : l <:+: []) : l = [] := by
  obtain ⟨s, t, hst⟩ := h
  have hlen := congrArg List.length hst
  simp only [List.length_append, List.length_nil] at hlen
  exact List.length_eq_zero.mp (by omega)

theorem containsSub_iff (pat s : List Char) : containsSub pat s = true ↔ pat <:+: s := by
  induction s with
  | nil =>
    rw [show containsSub pat [] = pat.isPrefixOf [] from rfl, isPreOf_iff]
    constructor
    · intro h; exact h.isInfix
    · intro h; rw [subOfNil_eq pat h]
  | cons c rest ih =>
    rw [show containsSub pat (c :: rest) =
          (pat.isPrefixOf (c :: rest) || containsSub pat rest) from rfl,
        Bool.or_eq_true, isPreOf_iff, ih, subCons_iff]

theorem repGo_drop (pat rep s : List Char) (n : Nat) :
    repGo pat rep s n = repGo pat rep (s.drop n) 0 := by
  induction s generalizing n with
  | nil => cases n <;> rfl
  | cons c rest ih =>
    cases n with
    | zero => rfl
    | succ m =>
      rw [show repGo pat rep (c :: rest) (m + 1) = repGo pat rep rest m from rfl, ih m]
      rfl

theorem replaceAll_cons (pat rep : List Char) (c : Char) (rest : List Char) :
    replaceAll pat rep (c :: rest) =
      if pat.isPrefixOf (c :: rest) then
        rep ++ replaceAll pat rep (rest.drop (pat.length - 1))
      else c :: replaceAll pat rep rest := by
  rw [show replaceAll pat rep (c :: rest) =
        (if pat.isPrefixOf (c :: rest) then
          rep ++ repGo pat rep rest (pat.length - 1)
         else c :: repGo pat rep rest 0) from rfl,
      repGo_drop pat rep rest (pat.length - 1)]
  rfl

theorem splitGo_drop (pat s : List Char) (n : Nat) :
    splitGo pat s n = splitGo pat (s.drop n) 0 := by
  induction s generalizing n with
  | nil => cases n <;> rfl
  | cons c rest ih =>
    cases n with
    | zero => rfl
    | succ m =>
      rw [show splitGo pat (c :: rest) (m + 1) = splitGo pat rest m from rfl, ih m]
      rfl

theorem splitOnPat_cons (pat : List Char) (c : Char) (rest : List Char) :
    splitOnPat pat (c :: rest) =
      if pat.isPrefixOf (c :: rest) then
        [] :: splitOnPat pat (rest.drop (pat.length - 1))
      else
        match splitOnPat pat rest with
        | [] => [[c]]
        | p :: ps => (c :: p) :: ps := by
  rw [show splitOnPat pat (c :: rest) =
        (if pat.isPrefixOf (c :: rest) then
          [] :: splitGo pat rest (pat.length - 1)
         else
          match splitGo pat rest 0 with
          | [] => [[c]]
          | p :: ps => (c :: p) :: ps) from rfl,
      splitGo_drop pat rest (pat.length - 1)]
  rfl

theorem splitOnPat_ne_nil (pat s : List Char) : splitOnPat pat s ≠ [] := by
  cases s with
  | nil => intro h; exact List.noConfusion h
  | cons c rest =>
    rw [splitOnPat_cons]
    split
    · simp
    · split <;> simp

theorem splitOnPat_head_bnd (pat : List Char) :
    ∀ n (s : List Char), s.length ≤ n →
      ∀ p ps, splitOnPat pat s = p :: ps → p <+: s := by
  intro n
  induction n with
  | zero =>
    intro s hs p ps hsp
    have hs0 : s = [] := List.length_eq_zero.mp (Nat.le_zero.mp hs)
    subst hs0
    rw [show splitOnPat pat [] = [[]] from rfl] at hsp
    injection hsp with h1 _
    rw [← h1]
  | succ n ih =>
    intro s hs p ps hsp
    cases s with
    | nil =>
      rw [show splitOnPat pat [] = [[]] from rfl] at hsp
      injection hsp with h1 _
      rw [← h1]
    | cons c rest =>
      simp only [List.length_cons] at hs
      rw [splitOnPat_cons] at hsp
      revert hsp
      split
      · intro hsp
        injection hsp with h1 _
        rw [← h1]
        exact ⟨c :: rest, rfl⟩
      · intro hsp
        cases hsr : splitOnPat pat rest with
        | nil => exact absurd hsr (splitOnPat_ne_nil pat rest)
        | cons p0 ps0 =>
          rw [hsr] at hsp
          have hsp' : (c :: p0) :: ps0 = p :: ps := hsp
          injection hsp' with h1 _
          have hpre : p0 <+: rest := ih rest (by omega) p0 ps0 hsr
          obtain ⟨t, ht⟩ := hpre
          rw [← h1]
          exact ⟨t, by rw [List.cons_append, ht]⟩

theorem splitOnPat_head (pat s : List Char) (p : List Char) (ps : List (List Char))
    (h : splitOnPat pat s = p :: ps) : p <+: s :=
  splitOnPat_head_bnd pat s.length s (Nat.le_refl _) p ps h

theorem joinWith_splitOnPat_bnd (pat : List Char) (hpat : pat ≠ []) :
    ∀ n (s : List Char), s.length ≤ n →
      joinWith pat (splitOnPat pat s) = s := by
  intro n
  induction n with
  | zero =>
    intro s hs
    have hs0 : s = [] := List.length_eq_zero.mp (Nat.le_zero.mp hs)
    subst hs0
    rfl
  | succ n ih =>
    intro s hs
    cases s with
    | nil => rfl
    | cons c rest =>
      simp only [List.length_cons] at hs
      rw [splitOnPat_cons]
      split
      · next h =>
        obtain ⟨t, ht⟩ := (isPreOf_iff pat (c :: rest)).mp h
        obtain ⟨hd, tl, hpat'⟩ := List.exists_cons_of_ne_nil hpat
        have hrest : rest = tl ++ t := by
          rw [hpat'] at ht
          injection ht with _ h2
          exact h2.symm
        have hdrop : rest.drop (pat.length - 1) = t := by
          rw [hrest, hpat']
          simp [List.drop_left]
        rw [hdrop]
        obtain ⟨q, qs, hq⟩ := List.exists_cons_of_ne_nil (splitOnPat_ne_nil pat t)
        rw [hq, show joinWith pat ([] :: q :: qs) = [] ++ pat ++ joinWith pat (q :: qs)
              from rfl,
            ← hq]
        have ht_len : t.length ≤ n := by
          have hl := congrArg List.length ht
          simp only [List.length_append, List.length_cons] at hl
          have hp1 : 1 ≤ pat.length := by rw [hpat']; simp
          omega
        rw [ih t ht_len]
        simpa using ht
      · next h =>
        obtain ⟨p, ps, hp⟩ := List.exists_cons_of_ne_nil (splitOnPat_ne_nil pat rest)
        rw [hp]
        show joinWith pat ((c :: p) :: ps) = c :: rest
        have hrest : joinWith pat (p :: ps) = rest := by
          rw [← hp]
          exact ih rest (by omega)
        cases ps with
        | nil =>
          rw [show joinWith pat [c :: p] = c :: p from rfl]
          rw [show joinWith pat [p] = p from rfl] at hrest
          rw [hrest]
        | cons q qs =>
          rw [show joinWith pat ((c :: p) :: q :: qs)
                = (c :: p) ++ pat ++ joinWith pat (q :: qs) from rfl]
          rw [show joinWith pat (p :: q :: qs)
                = p ++ pat ++ joinWith pat (q :: qs) from rfl] at hrest
          rw [← hrest]
          simp

theorem joinWith_splitOnPat (pat : List Char) (hpat : pat ≠ []) (s : List Char) :
    joinWith pat (splitOnPat pat s) = s :=
  joinWith_splitOnPat_bnd pat hpat s.length s (Nat.le_refl _)

theorem replaceAll_eq_join_bnd (pat rep : List Char) (hpat : pat ≠ []) :
    ∀ n (s : List Char), s.length ≤ n →
      replaceAll pat rep s = joinWith rep (splitOnPat pat s) := by
  intro n
  induction n with
  | zero =>
    intro s hs
    have hs0 : s = [] := List.length_eq_zero.mp (Nat.le_zero.mp hs)
    subst hs0
    rfl
  | succ n ih =>
    intro s hs
    cases s with
    | nil => rfl
    | cons c rest =>
      simp only [List.length_cons] at hs
      by_cases h : pat.isPrefixOf (c :: rest) = true
      · rw [replaceAll_cons, splitOnPat_cons, if_pos h, if_pos h]
        obtain ⟨q, qs, hq⟩ :=
          List.exists_cons_of_ne_nil (splitOnPat_ne_nil pat (rest.drop (pat.length - 1)))
        rw [hq, show joinWith rep ([] :: q :: qs) = [] ++ rep ++ joinWith rep (q :: qs)
              from rfl,
            ← hq]
        have hlen : (rest.drop (pat.length - 1)).length ≤ n := by
          rw [List.length_drop]
          omega
        rw [← ih (rest.drop (pat.length - 1)) hlen]
        simp
      · rw [replaceAll_cons, splitOnPat_cons, if_neg h, if_neg h]
        obtain ⟨p, ps, hp⟩ := List.exists_cons_of_ne_nil (splitOnPat_ne_nil pat rest)
        rw [hp]
        show c :: replaceAll pat rep rest = joinWith rep ((c :: p) :: ps)
        have hrest : replaceAll pat rep rest = joinWith rep (p :: ps) := by
          rw [← hp]
          exact ih rest (by omega)
        rw [hrest]
        cases ps with
        | nil => rfl
        | cons q qs =>
          rw [show joinWith rep ((c :: p) :: q :: qs)
                = (c :: p) ++ rep ++ joinWith rep (q :: qs) from rfl,
              show joinWith rep (p :: q :: qs)
                = p ++ rep ++ joinWith rep (q :: qs) from rfl]
          simp

theorem replaceAll_eq_join (pat rep : List Char) (hpat : pat ≠ []) (s : List Char) :
    replaceAll pat rep s = joinWith rep (splitOnPat pat s) :=
  replaceAll_eq_join_bnd pat rep hpat s.length s (Nat.le_refl _)

theorem splitOnPat_parts_bnd (pat : List Char) (hpat : pat ≠ []) :
    ∀ n (s : List Char), s.length ≤ n →
      ∀ p ∈ splitOnPat pat s, ¬ pat <:+: p := by
  intro n
  induction n with
  | zero =>
    intro s hs p hp
    have hs0 : s = [] := List.length_eq_zero.mp (Nat.le_zero.mp hs)
    subst hs0
    have hp' : p ∈ [([] : List Char)] := hp
    rw [List.mem_singleton] at hp'
    subst hp'
    intro hinf
    exact hpat (subOfNil_eq pat hinf)
  | succ n ih =>
    intro s hs p hp
    cases s with
    | nil =>
      have hp' : p ∈ [([] : List Char)] := hp
      rw [List.mem_singleton] at hp'
      subst hp'
      intro hinf
      exact hpat (subOfNil_eq pat hinf)
    | cons c rest =>
      simp only [List.length_cons] at hs
      rw [splitOnPat_cons] at hp
      by_cases h : pat.isPrefixOf (c :: rest) = true
      · rw [if_pos h] at hp
        rcases List.mem_cons.mp hp with h1 | h1
        · subst h1
          intro hinf
          exact hpat (subOfNil_eq pat hinf)
        · have hlen : (rest.drop (pat.length - 1)).length ≤ n := by
            rw [List.length_drop]
            omega
          exact ih (rest.drop (pat.length - 1)) hlen p h1
      · rw [if_neg h] at hp
        obtain ⟨p0, ps0, hp0⟩ := List.exists_cons_of_ne_nil (splitOnPat_ne_nil pat rest)
        rw [hp0] at hp
        have hp' : p ∈ (c :: p0) :: ps0 := hp
        rcases List.mem_cons.mp hp' with h1 | h1
        · subst h1
          intro hinf
          rcases (subCons_iff pat p0 c).mp hinf with hpre | hsub
          · have hp0pre : p0 <+: rest := splitOnPat_head pat rest p0 ps0 hp0
            obtain ⟨t, ht⟩ := hp0pre
            have hcc : pat <+: c :: rest :=
              hpre.trans ⟨t, by rw [List.cons_append, ht]⟩
            exact h ((isPreOf_iff pat (c :: rest)).mpr hcc)
          · have hmem : p0 ∈ splitOnPat pat rest := by
              rw [hp0]
              exact List.mem_cons_self _ _
            exact ih rest (by omega) p0 hmem hsub
        · have hmem : p ∈ splitOnPat pat rest := by
            rw [hp0]
            exact List.mem_cons_of_mem _ h1
          exact ih rest (by omega) p hmem

theorem splitOnPat_parts (pat : List Char) (hpat : pat ≠ []) (s : List Char) :
    ∀ p ∈ splitOnPat pat s, ¬ pat <:+: p :=
  splitOnPat_parts_bnd pat hpat s.length s (Nat.le_refl _)

theorem splitOnPat_of_not_sub (pat s : List Char) (h : ¬ pat <:+: s) :
    splitOnPat pat s = [s] := by
  induction s with
  | nil => rfl
  | cons c rest ih =>
    rw [splitOnPat_cons]
    have h1 : ¬ pat.isPrefixOf (c :: rest) = true := by
      intro hh
      exact h ((isPreOf_iff _ _).mp hh).isInfix
    rw [if_neg h1]
    have h2 : ¬ pat <:+: rest := fun hh => h ((subCons_iff pat rest c).mpr (Or.inr hh))
    rw [ih h2]

theorem replaceAll_single_cons (a : Char) (rep : List Char) (c : Char) (rest : List Char) :
    replaceAll [a] rep (c :: rest) =
      (if c = a then rep else [c]) ++ replaceAll [a] rep rest := by
  rw [replaceAll_cons]
  have h0 : (([] : List Char).isPrefixOf rest) = true := by cases rest <;> rfl
  have h1 : ([a].isPrefixOf (c :: rest)) = (a == c) := by
    rw [show ([a].isPrefixOf (c :: rest)) = (a == c && ([] : List Char).isPrefixOf rest)
          from rfl,
        h0, Bool.and_true]
  rw [h1]
  by_cases h : (a == c) = true
  · have hc : c = a := (beq_iff_eq.mp h).symm
    rw [if_pos h, if_pos hc]
    rfl
  · have hc : ¬(c = a) := fun hh => h (by rw [hh]; exact beq_self_eq_true a)
    rw [if_neg h, if_neg hc]
    rfl

theorem substituted_eq_spec (id : List Char) : substituted id = specSubst id := by
  induction id with
  | nil => rfl
  | cons c rest ih =>
    unfold substituted
    rw [replaceAll_single_cons '/' _ c rest]
    by_cases h : c = '/'
    · rw [if_pos h,
          show (('_' :: '_' :: []) ++ replaceAll ['/'] ('_' :: '_' :: []) rest)
            = '_' :: '_' :: replaceAll ['/'] ('_' :: '_' :: []) rest from rfl,
          replaceAll_single_cons '\\' _ '_' _,
          if_neg (by decide : ¬(('_' : Char) = '\\')),
          show (['_'] ++ replaceAll ['\\'] ('_' :: '_' :: [])
                  ('_' :: replaceAll ['/'] ('_' :: '_' :: []) rest))
            = '_' :: replaceAll ['\\'] ('_' :: '_' :: [])
                  ('_' :: replaceAll ['/'] ('_' :: '_' :: []) rest) from rfl,
          replaceAll_single_cons '\\' _ '_' _,
          if_neg (by decide : ¬(('_' : Char) = '\\'))]
      show '_' :: '_' :: substituted rest = specSubst (c :: rest)
      rw [ih, show specSubst (c :: rest)
            = (if c = '/' ∨ c = '\\' then '_' :: '_' :: [] else [c]) ++ specSubst rest
            from rfl,
          if_pos (Or.inl h)]
      rfl
    · rw [if_neg h,
          show ([c] ++ replaceAll ['/'] ('_' :: '_' :: []) rest)
            = c :: replaceAll ['/'] ('_' :: '_' :: []) rest from rfl,
          replaceAll_single_cons '\\' _ c _]
      by_cases h2 : c = '\\'
      · rw [if_pos h2]
        show '_' :: '_' :: substituted rest = specSubst (c :: rest)
        rw [ih, show specSubst (c :: rest)
              = (if c = '/' ∨ c = '\\' then '_' :: '_' :: [] else [c]) ++ specSubst rest
              from rfl,
            if_pos (Or.inr h2)]
        rfl
      · rw [if_neg h2]
        show c :: substituted rest = specSubst (c :: rest)
        rw [ih, show specSubst (c :: rest)
              = (if c = '/' ∨ c = '\\' then '_' :: '_' :: [] else [c]) ++ specSubst rest
              from rfl,
            if_neg (fun hh => Or.elim hh h h2)]
        rfl

theorem matchesGlob_iff (pre suf name : List Char) :
    matchesGlob pre suf name = true ↔ ∃ mid, name = pre ++ mid ++ suf := by
  unfold matchesGlob
  rw [Bool.and_eq_true, isPreOf_iff, isSufOf_iff]
  constructor
  · rintro ⟨⟨t, ht⟩, hsuf⟩
    have hdrop : name.drop pre.length = t := by rw [← ht, List.drop_left]
    rw [hdrop] at hsuf
    obtain ⟨mid, hmid⟩ := hsuf
    refine ⟨mid, ?_⟩
    rw [← ht, ← hmid]
    simp [List.append_assoc]
  · rintro ⟨mid, hmid⟩
    subst hmid
    constructor
    · exact ⟨mid ++ suf, by simp [List.append_assoc]⟩
    · rw [show (pre ++ mid ++ suf) = pre ++ (mid ++ suf) from by simp [List.append_assoc],
          List.drop_left]
      exact ⟨mid, rfl⟩

/-! ## Claim theorems -/

/-- C1: for every command specification (abstracted by the exit status
`n` its external process terminates with) and every non-zero `n`,
`run_command` with enforced success terminates the whole process with
exit status exactly `n` — no other error path, no retry. -/
theorem run_command_enforced_failure_exits (n : Nat) (shell : Bool) (h : n ≠ 0) :
    run_command n shell true = RunOutcome.exited n := by
  unfold run_command
  rw [if_pos (by simp [h])]

/-- Witness for C1 at the concrete failing status 1. -/
theorem run_command_enforced_failure_exits_witness :
    run_command 1 false true = RunOutcome.exited 1 :=
  run_command_enforced_failure_exits 1 false (by decide)

/-- C2: the derived per-unit artifact filename is
`cpuprofile-<id with every slash and backslash replaced by __>.pprof`,
where the replacement is the spec's simultaneous per-character
substitution `specSubst`. -/
theorem profile_filename_matches_spec (id : List Char) :
    profile_filename id = "cpuprofile-".toList ++ specSubst id ++ ".pprof".toList := by
  unfold profile_filename
  rw [substituted_eq_spec]

/-- C3 counterexample: the naming substitution is not injective on raw
identifiers — the distinct identifiers `a/b` and `a\b` yield the same
artifact filename `cpuprofile-a__b.pprof`. -/
theorem profile_filename_collision :
    "a/b".toList ≠ "a\\b".toList ∧
    profile_filename ("a/b".toList) = profile_filename ("a\\b".toList) := by decide

/-- C3 (amended): the naming scheme is collision-free exactly on
identifiers that still differ after substitution — if the substituted
identifiers differ, the derived artifact filenames differ. -/
theorem profile_filename_injective_after_subst (id1 id2 : List Char)
    (h : substituted id1 ≠ substituted id2) :
    profile_filename id1 ≠ profile_filename id2 := by
  intro heq
  unfold profile_filename at heq
  exact h (List.append_cancel_left (List.append_cancel_right heq))

/-- Witness for the amended C3 at the identifiers `a` and `b`. -/
theorem profile_filename_injective_after_subst_witness :
    profile_filename ("a".toList) ≠ profile_filename ("b".toList) :=
  profile_filename_injective_after_subst _ _ (by decide)

/-- C4 counterexample: the cleanup glob `cpuprofile*.pprof` matches the
CanonicalProfile `cpuprofile.pprof` itself, so cleanup deletes it rather
than leaving it present as the claim states. -/
theorem cleanup_removes_canonical_profile :
    cleanup ["cpuprofile.pprof".toList] = [] := by decide

/-- C4 (amended): cleanup deletes exactly the entries matching
`cpuprofile*.pprof` or `*.test` — a set that includes the canonical
`cpuprofile.pprof` — and keeps every other file, in particular the
visualization `cpuprofile.svg` and all unrelated files. -/
theorem cleanup_keeps_iff (files : List (List Char)) (f : List Char) :
    f ∈ cleanup files ↔ f ∈ files ∧ KeptBySpec f := by
  unfold cleanup
  rw [List.mem_filter]
  have hiff : (!(isIntermediate f)) = true ↔ KeptBySpec f := by
    cases hI : isIntermediate f with
    | true =>
      constructor
      · intro hfalse; exact Bool.noConfusion hfalse
      · intro hk
        exfalso
        unfold isIntermediate at hI
        rw [Bool.or_eq_true] at hI
        rcases hI with hg | hg
        · obtain ⟨mid, hmid⟩ := (matchesGlob_iff _ _ _).mp hg
          exact hk (Or.inl ⟨mid, hmid⟩)
        · obtain ⟨mid, hmid⟩ := (matchesGlob_iff _ _ _).mp hg
          exact hk (Or.inr ⟨mid, by simpa using hmid⟩)
    | false =>
      constructor
      · intro _
        intro hor
        have hI' : isIntermediate f = true := by
          unfold isIntermediate
          rw [Bool.or_eq_true]
          rcases hor with ⟨mid, hmid⟩ | ⟨stem, hstem⟩
          · exact Or.inl ((matchesGlob_iff _ _ _).mpr ⟨mid, hmid⟩)
          · exact Or.inr ((matchesGlob_iff _ _ _).mpr ⟨stem, by simpa using hstem⟩)
        rw [hI] at hI'
        exact Bool.noConfusion hI'
      · intro _
        rfl
  rw [hiff]

/-- C5: on a directory holding exactly `cpuprofile.pprof`,
`cpuprofile-cmd__server.pprof`, `cpuprofile-merged.pprof`,
`server.test` and `important.txt`, cleanup removes the first four and
keeps `important.txt`. -/
theorem cleanup_integration_scenario :
    cleanup ["cpuprofile.pprof".toList, "cpuprofile-cmd__server.pprof".toList,
      "cpuprofile-merged.pprof".toList, "server.test".toList, "important.txt".toList]
      = ["important.txt".toList] := by decide

/-- C6: the benchmark command for any unit carries the unit-test
suppressing pattern `-run=^$`, the all-benchmarks selector `-bench=.`,
the PGO-disabling flag `-pgo=off`, and directs the CPU profile to the
unit's derived artifact path via `-cpuprofile=`. -/
theorem benchmark_cmd_flags (pkg : List Char) :
    "-run=^$".toList ∈ benchmark_cmd pkg ∧
    "-bench=.".toList ∈ benchmark_cmd pkg ∧
    "-pgo=off".toList ∈ benchmark_cmd pkg ∧
    ("-cpuprofile=".toList ++ profile_filename pkg) ∈ benchmark_cmd pkg := by
  refine ⟨?_, ?_, ?_, ?_⟩ <;> simp [benchmark_cmd]

/-- C7: on any existing readable file, `replace_placeholder` leaves the
file holding the text in which every exact placeholder occurrence has
been replaced by the secret and everything outside those occurrences is
unchanged: the parts of `splitOnPat` reassemble to the original with the
placeholder, none of them contains the placeholder, and the resulting
content is the same parts glued with the secret. -/
theorem replace_placeholder_every_occurrence (text secret : List Char) :
    joinWith PLACEHOLDER (splitOnPat PLACEHOLDER text) = text ∧
    (splitOnPat PLACEHOLDER text).all (fun p => !(containsSub PLACEHOLDER p)) = true ∧
    ∃ act, replace_placeholder (some text) true secret = Except.ok act ∧
      fileAfter (some text) act = some (joinWith secret (splitOnPat PLACEHOLDER text)) := by
  have hne : PLACEHOLDER ≠ [] := by decide
  refine ⟨joinWith_splitOnPat PLACEHOLDER hne text, ?_, ?_⟩
  · rw [List.all_eq_true]
    intro p hp
    show (!(containsSub PLACEHOLDER p)) = true
    have hnot := splitOnPat_parts PLACEHOLDER hne text p hp
    cases hc : containsSub PLACEHOLDER p with
    | false => rfl
    | true => exact absurd ((containsSub_iff _ _).mp hc) hnot
  · by_cases hc : containsSub PLACEHOLDER text = true
    · refine ⟨some (replaceAll PLACEHOLDER secret text), ?_, ?_⟩
      · rw [show replace_placeholder (some text) true secret
              = (if containsSub PLACEHOLDER text then
                  Except.ok (some (replaceAll PLACEHOLDER secret text))
                 else Except.ok none) from rfl,
            if_pos hc]
      · rw [show fileAfter (some text) (some (replaceAll PLACEHOLDER secret text))
              = some (replaceAll PLACEHOLDER secret text) from rfl,
            replaceAll_eq_join PLACEHOLDER secret hne text]
    · refine ⟨none, ?_, ?_⟩
      · rw [show replace_placeholder (some text) true secret
              = (if containsSub PLACEHOLDER text then
                  Except.ok (some (replaceAll PLACEHOLDER secret text))
                 else Except.ok none) from rfl,
            if_neg hc]
      · rw [show fileAfter (some text) none = some text from rfl,
            splitOnPat_of_not_sub PLACEHOLDER text
              (fun hh => hc ((containsSub_iff _ _).mpr hh))]
        rfl

/-- C8: when the file is absent, or present but free of the
placeholder, `replace_placeholder` raises nothing, performs no write,
and the file state is byte-identical to the state before the call. -/
theorem replace_placeholder_silent_noop (file : Option (List Char)) (readOk : Bool)
    (secret : List Char)
    (h : file = none ∨ ∃ t, file = some t ∧ containsSub PLACEHOLDER t = false) :
    replace_placeholder file readOk secret = Except.ok none ∧
    fileAfter file none = file := by
  refine ⟨?_, rfl⟩
  rcases h with h | ⟨t, hft, hc⟩
  · subst h; rfl
  · subst hft
    cases readOk with
    | false => rfl
    | true =>
      rw [show replace_placeholder (some t) true secret
            = (if containsSub PLACEHOLDER t then
                Except.ok (some (replaceAll PLACEHOLDER secret t))
               else Except.ok none) from rfl,
          if_neg (by simp [hc])]

/-- Witness for C8 on a concrete file without the placeholder. -/
theorem replace_placeholder_silent_noop_witness :
    replace_placeholder (some ("SECRET=already_set_value".toList)) true ("x".toList)
      = Except.ok none ∧
    fileAfter (some ("SECRET=already_set_value".toList)) none
      = some ("SECRET=already_set_value".toList) :=
  replace_placeholder_silent_noop _ _ _ (Or.inr ⟨_, rfl, by decide⟩)

/-- C9: rotating a file holding `SECRET=CHANGE_ME_LOCAL_SECRET` with a
generated 32-character alphanumeric secret writes `SECRET=<secret>`,
and a second rotation on the result (with any fresh secret) is a no-op
leaving the file byte-identical. -/
theorem secret_rotation_idempotent (secret secret2 : List Char)
    (hsec : isGeneratedSecret 32 secret) :
    replace_placeholder (some ("SECRET=CHANGE_ME_LOCAL_SECRET".toList)) true secret
      = Except.ok (some ("SECRET=".toList ++ secret)) ∧
    replace_placeholder (some ("SECRET=".toList ++ secret)) true secret2
      = Except.ok none := by
  obtain ⟨hlen, halpha⟩ := hsec
  constructor
  · rw [show replace_placeholder (some ("SECRET=CHANGE_ME_LOCAL_SECRET".toList)) true secret
          = (if containsSub PLACEHOLDER ("SECRET=CHANGE_ME_LOCAL_SECRET".toList) then
              Except.ok (some (replaceAll PLACEHOLDER secret
                ("SECRET=CHANGE_ME_LOCAL_SECRET".toList)))
             else Except.ok none) from rfl,
        if_pos (by decide),
        replaceAll_eq_join PLACEHOLDER secret (by decide) _,
        show splitOnPat PLACEHOLDER ("SECRET=CHANGE_ME_LOCAL_SECRET".toList)
          = ["SECRET=".toList, []] from by decide,
        show joinWith secret ["SECRET=".toList, ([] : List Char)]
          = "SECRET=".toList ++ secret ++ [] from rfl,
        List.append_nil]
  · have hnc : ¬ containsSub PLACEHOLDER ("SECRET=".toList ++ secret) = true := by
      intro hC
      have hinf := (containsSub_iff _ _).mp hC
      have hmem : '_' ∈ "SECRET=".toList ++ secret :=
        hinf.subset (by decide : ('_' : Char) ∈ PLACEHOLDER)
      rcases List.mem_append.mp hmem with hm | hm
      · exact absurd hm (by decide)
      · exact absurd (halpha '_' hm) (by decide)
    rw [show replace_placeholder (some ("SECRET=".toList ++ secret)) true secret2
          = (if containsSub PLACEHOLDER ("SECRET=".toList ++ secret) then
              Except.ok (some (replaceAll PLACEHOLDER secret2 ("SECRET=".toList ++ secret)))
             else Except.ok none) from rfl,
        if_neg hnc]

/-- Witness for C9 with a concrete 32-character alphanumeric secret. -/
theorem secret_rotation_idempotent_witness :
    replace_placeholder (some ("SECRET=CHANGE_ME_LOCAL_SECRET".toList)) true
        ("abcdefghijklmnopqrstuvwxyzABCDEF".toList)
      = Except.ok (some ("SECRET=".toList ++ "abcdefghijklmnopqrstuvwxyzABCDEF".toList)) ∧
    replace_placeholder
        (some ("SECRET=".toList ++ "abcdefghijklmnopqrstuvwxyzABCDEF".toList)) true
        ("0".toList)
      = Except.ok none :=
  secret_rotation_idempotent _ _ ⟨by decide, by decide⟩

/-- C10: on an existing file whose read raises an I/O error, the
function returns normally — no exception propagates, no write happens,
and the file is unmodified. -/
theorem replace_placeholder_read_error_returns (text secret : List Char) :
    replace_placeholder (some text) false secret = Except.ok none ∧
    fileAfter (some text) none = some text :=
  ⟨rfl, rfl⟩

end HotelBooking
